import Mathlib

/-!
Verification of the markdown-reader-mcp server core (Go sources under
`find.go`, `read_handler.go`, `main.go`) against its natural-language
specification.  The Go functions are shallowly embedded as executable Lean
definitions: strings are Lean `String`s, the filesystem is an explicit tree
value, Go `int` is `Int`, and decoded JSON arguments are an inductive value.
-/

/-! ## Go string primitives

Models of the `strings` / `path/filepath` standard-library functions the
sources call.  `strings.ToLower` / `strings.EqualFold` are modelled by
per-character simple lowercasing, which agrees with Go on the ASCII file
names the server handles. -/

/-- Model of Go `strings.ToLower`. -/
def goToLower (s : String) : String :=
  ⟨s.data.map Char.toLower⟩

/-- Model of Go `strings.HasSuffix s suffix`. -/
def goHasSuffix (s suffix : String) : Bool :=
  decide (suffix.data <:+ s.data)

/-- Model of Go `strings.Contains s sub` (substring anywhere in `s`). -/
def goContains (s sub : String) : Bool :=
  decide (sub.data <:+: s.data)

/-- Model of Go `strings.EqualFold` (case-insensitive equality). -/
def goEqualFold (a b : String) : Bool :=
  goToLower a == goToLower b

/-- Model of Go `strings.TrimPrefix s pre`: drops `pre` from the front of
`s` when it is a leading piece, otherwise returns `s` unchanged. -/
def goTrimHead (s pre : String) : String :=
  if pre.data <+: s.data then ⟨s.data.drop pre.data.length⟩ else s

/-- Model of Go `filepath.Base` on the clean, nonempty slash-separated
paths the walk constructs: the component after the last separator. -/
def goBase (s : String) : String :=
  if s.data.isEmpty then "." else ⟨(s.data.reverse.takeWhile (fun c => c != '/')).reverse⟩

/-- Model of Go `filepath.Dir` on the clean paths the walk constructs:
everything before the last separator (`.` when there is none, `/` when the
separator is leading). -/
def goDir (s : String) : String :=
  match s.data.reverse.dropWhile (fun c => c != '/') with
  | [] => "."
  | _ :: rest => if rest.isEmpty then "/" else ⟨rest.reverse⟩

/-- The path `parent ++ "/" ++ name` that `filepath.WalkDir` hands to its
callback for an entry `name` inside directory `parent`. -/
def joinPath (parent name : String) : String :=
  parent ++ "/" ++ name

/-! ## Regex fragment for the ignore patterns

`shouldIgnoreDir` calls `regexp.MatchString`.  The configuration's default
patterns (`\.git$`, `node_modules$`, and in the documented examples also
`vendor$`) use only literal characters, `\`-escapes, `.`, and the `^` / `$`
anchors, so the embedding implements exactly that fragment of RE2 with Go's
unanchored-search semantics; any pattern outside the fragment is treated
like an invalid pattern, which `shouldIgnoreDir` skips. -/

/-- One regex token: a literal character, or `.` (any character except
newline, RE2 default). -/
inductive RTok where
  | lit (c : Char)
  | dot
deriving DecidableEq, Repr

/-- Metacharacters outside the supported fragment (an unescaped occurrence
makes the pattern unsupported). -/
def regexMeta : List Char :=
  ['*', '+', '?', '(', ')', '[', ']', Char.ofNat 123, Char.ofNat 125, '|', '^', '$']

/-- Parse a pattern body (anchors already stripped) into tokens. -/
def parseToks : List Char → Option (List RTok)
  | [] => some []
  | '\\' :: [] => none
  | '\\' :: c :: rest => (parseToks rest).map (fun ts => RTok.lit c :: ts)
  | '.' :: rest => (parseToks rest).map (fun ts => RTok.dot :: ts)
  | c :: rest =>
    if regexMeta.contains c then none
    else (parseToks rest).map (fun ts => RTok.lit c :: ts)

/-- A compiled pattern of the supported fragment. -/
structure SimpleRegex where
  anchorStart : Bool
  anchorEnd : Bool
  toks : List RTok
deriving DecidableEq, Repr

/-- Strip a trailing `$` anchor. -/
def splitEndAnchor (cs : List Char) : List Char × Bool :=
  match cs.getLast? with
  | some c => if c == '$' then (cs.dropLast, true) else (cs, false)
  | none => (cs, false)

/-- Compile a pattern string; `none` when the pattern falls outside the
supported fragment (treated like a compile error, hence skipped). -/
def compileRegex (pat : String) : Option SimpleRegex :=
  let p1 := match pat.data with
    | '^' :: rest => (rest, true)
    | cs => (cs, false)
  let p2 := splitEndAnchor p1.1
  (parseToks p2.1).map (fun ts => ⟨p1.2, p2.2, ts⟩)

/-- Does a token match a character? -/
def tokMatch : RTok → Char → Bool
  | RTok.lit c, a => c == a
  | RTok.dot, a => a != '\n'

/-- Match the token list at the front of `s`, returning the rest of `s`. -/
def matchToks : List RTok → List Char → Option (List Char)
  | [], s => some s
  | _ :: _, [] => none
  | t :: ts, a :: s => if tokMatch t a then matchToks ts s else none

/-- Match the compiled pattern at this exact position (honouring `$`). -/
def matchAt (re : SimpleRegex) (s : List Char) : Bool :=
  match matchToks re.toks s with
  | none => false
  | some rest => !re.anchorEnd || rest.isEmpty

/-- Unanchored search: try every start position. -/
def searchAll (re : SimpleRegex) : List Char → Bool
  | [] => matchAt re []
  | a :: s => matchAt re (a :: s) || searchAll re s

/-- Model of Go `regexp.MatchString pat s` on the supported fragment. -/
def regexMatch (re : SimpleRegex) (s : String) : Bool :=
  if re.anchorStart then matchAt re s.data else searchAll re s.data

/-! ## Configuration (`main.go`)

Only the fields the discovery and read paths consult are carried;
`DebugLogging`, SSE and log-file settings only affect logging/transport. -/

/-- The parts of `Config` (main.go) that the verified core reads. -/
structure Config where
  directories : List String
  maxPageSize : Int
  ignoreDirs : List String
deriving Repr

/-- The default ignore patterns installed by `main` for command-line usage
(main.go): `\.git$` and `node_modules$`. -/
def defaultIgnoreDirs : List String := ["\\.git$", "node_modules$"]

/-- Model of `shouldIgnoreDir` (find.go): a directory name is ignored when some
configured pattern matches it; a pattern that does not compile is skipped. -/
def shouldIgnoreDir (cfg : Config) (dirName : String) : Bool :=
  cfg.ignoreDirs.any fun pat =>
    match compileRegex pat with
    | none => false
    | some re => regexMatch re dirName

/-- A configuration with the default ignore patterns, used for concrete
evaluations. -/
def defaultCfg : Config :=
  { directories := [], maxPageSize := 500, ignoreDirs := defaultIgnoreDirs }

/-! ## Filesystem model and discovery (`find.go`)

The filesystem visible from a configured root is an explicit tree;
`filepath.WalkDir` enumerates children in list order (the source guarantees
no particular order across the walk).  A configured directory that does not
exist (or whose absolute resolution fails) is `none`. -/

/-! A directory entry (`FSEntry`): a file, or a subdirectory with its
children.  `FSList` is the entry sequence of a directory in walk order; the
mutual presentation keeps every walk structurally recursive. -/
mutual
inductive FSEntry where
  | file (name : String)
  | dir (name : String) (children : FSList)
deriving Repr
inductive FSList where
  | nil
  | cons (e : FSEntry) (es : FSList)
deriving Repr
end

/-- Build an `FSList` from a plain list of entries. -/
def fsList : List FSEntry → FSList
  | [] => FSList.nil
  | e :: es => FSList.cons e (fsList es)

/-- A configured root directory that exists: its absolute path, its base
name (what `d.Name()` yields when the walk visits the root itself), and its
children. -/
structure Root where
  absPath : String
  name : String
  children : FSList
deriving Repr

/-- Does a (lower-cased) name end in `.md`?  The test the walk applies to
every file entry. -/
def isMdName (n : String) : Bool :=
  goHasSuffix (goToLower n) ".md"

/-! `collectEntry` / `collectEntries`: the walk body of
`collectMarkdownFilesFromDir` (find.go) — depth-first in entry order,
pruning subdirectories that `shouldIgnoreDir` matches, collecting paths of
files whose lower-cased name ends in `.md`. -/
mutual
def collectEntry (cfg : Config) (parent : String) : FSEntry → List String
  | FSEntry.file n => if isMdName n then [joinPath parent n] else []
  | FSEntry.dir n cs =>
    if shouldIgnoreDir cfg n then [] else collectEntries cfg (joinPath parent n) cs
def collectEntries (cfg : Config) (parent : String) : FSList → List String
  | FSList.nil => []
  | FSList.cons e es => collectEntry cfg parent e ++ collectEntries cfg parent es
end

/-- Model of `collectMarkdownFilesFromDir` (find.go): a missing root yields no
results (warning logged, not an error); the walk visits the root directory
itself first, so a root whose own base name is ignored is skipped whole. -/
def collectMarkdownFilesFromDir (cfg : Config) : Option Root → List String
  | none => []
  | some r =>
    if shouldIgnoreDir cfg r.name then []
    else collectEntries cfg r.absPath r.children

/-- Concatenation of the per-root walks, in configuration order — the
`allMarkdownFiles` accumulator of `findMarkdownFiles` (find.go). -/
def discoveredFiles (cfg : Config) (roots : List (Option Root)) : List String :=
  (roots.map (collectMarkdownFilesFromDir cfg)).flatten

/-- The query filter of `findMarkdownFiles` (find.go): a non-empty query
keeps entries whose lower-cased base filename contains the lower-cased
query; an empty query keeps everything. -/
def filterByQuery (query : String) (files : List String) : List String :=
  if query ≠ "" then
    files.filter (fun f => goContains (goToLower (goBase f)) (goToLower query))
  else files

/-- Model of `findMarkdownFiles` (find.go): collect, filter, then paginate.  A
requested page size that is non-positive or exceeds `maxPageSize` silently
falls back to the default 50.  The Go function's `error` result is
statically `nil` on every return path, so the embedding is total. -/
def findMarkdownFiles (cfg : Config) (roots : List (Option Root))
    (query : String) (pageSize : Int) : List String :=
  let filteredFiles := filterByQuery query (discoveredFiles cfg roots)
  let ps : Int := if pageSize ≤ 0 ∨ pageSize > cfg.maxPageSize then 50 else pageSize
  if (filteredFiles.length : Int) ≤ ps then filteredFiles
  else filteredFiles.take ps.toNat

/-! ## Request arguments (`find.go` parameter extraction)

The handler receives `req.Params.Arguments` as decoded JSON (`any` in Go);
JSON numbers decode to `float64`, modelled here as `ℚ`. -/

/-- A decoded JSON value as Go's `encoding/json` produces into `any`. -/
inductive JValue where
  | null
  | bool (b : Bool)
  | num (q : ℚ)
  | str (s : String)
  | arr (xs : List JValue)
  | obj (fields : List (String × JValue))

/-- Object-field lookup, the model of a Go map index on decoded JSON. -/
def jLookup (fields : List (String × JValue)) (k : String) : Option JValue :=
  match fields.find? (fun p => p.1 == k) with
  | some p => some p.2
  | none => none

/-- Is a character an ASCII digit? -/
def isDigitCh (c : Char) : Bool :=
  '0' ≤ c ∧ c ≤ '9'

/-- Digit accumulation for `parseAtoi`. -/
def digitsVal : List Char → Nat → Option Nat
  | [], acc => some acc
  | c :: rest, acc =>
    if isDigitCh c then digitsVal rest (acc * 10 + (c.toNat - '0'.toNat)) else none

/-- Model of Go `strconv.Atoi`: optional sign, then one or more digits
spanning the whole string; values outside the 64-bit `int` range are an
error (`ErrRange`). -/
def parseAtoi (s : String) : Option Int :=
  let core : List Char → Option Int := fun cs =>
    match cs with
    | [] => none
    | _ => (digitsVal cs 0).map (fun n => (n : Int))
  let signed : Option Int :=
    match s.data with
    | '-' :: rest => (core rest).map (fun n => -n)
    | '+' :: rest => core rest
    | cs => core cs
  match signed with
  | none => none
  | some v => if v < -(2 ^ 63) ∨ v ≥ 2 ^ 63 then none else some v

/-- Conversion of a Go `float64` to `int`: truncation toward zero
(`Int.tdiv` of the rational's numerator by its denominator). -/
def truncRat (q : ℚ) : Int :=
  Int.tdiv q.num q.den

/-- Model of `extractQueryParam` (find.go): the `query` argument when it is a
string, otherwise the empty string. -/
def extractQueryParam (arguments : JValue) : String :=
  match arguments with
  | JValue.obj fields =>
    match jLookup fields "query" with
    | some (JValue.str s) => s
    | _ => ""
  | _ => ""

/-- Model of `extractPageSizeParam` (find.go): a string argument is parsed with
`strconv.Atoi`; a number argument is truncated to `int`; everything else
(absent key, non-object arguments, other types, unparseable string) falls
back to the default page size 50. -/
def extractPageSizeParam (arguments : JValue) : Int :=
  match arguments with
  | JValue.obj fields =>
    match jLookup fields "page_size" with
    | some (JValue.str s) =>
      match parseAtoi s with
      | some n => n
      | none => 50
    | some (JValue.num q) => truncRat q
    | _ => 50
  | _ => 50

/-! ## The find handler (`find.go`) -/

/-- One entry of the `files` array the handler serializes: the absolute
path, the base filename, and the path relative to its parent directory. -/
structure FileInfo where
  path : String
  name : String
  relativePath : String
deriving DecidableEq, Repr

/-- The object `handleFindMarkdownFiles` serializes: the configured
directories, the file objects, and the returned count. -/
structure FindResult where
  directories : List String
  files : List FileInfo
  count : Nat
deriving Repr

/-- Model of `handleFindMarkdownFiles` (find.go): extract `query` and `page_size`
from the request arguments, run `findMarkdownFiles`, and build one object
per result with `path`, `name` and `relativePath` fields.  The error
branches (a `findMarkdownFiles` error, a marshal failure) are unreachable,
so the embedding returns the result object directly. -/
def handleFindMarkdownFiles (cfg : Config) (roots : List (Option Root))
    (arguments : JValue) : FindResult :=
  let query := extractQueryParam arguments
  let pageSize := extractPageSizeParam arguments
  let files := findMarkdownFiles cfg roots query pageSize
  let fileInfos := files.map (fun file =>
    { path := file
      name := goBase file
      relativePath := goTrimHead file (goDir file ++ "/") })
  { directories := cfg.directories, files := fileInfos, count := fileInfos.length }

/-! ## The name resolver and the read handler (`read_handler.go`) -/

/-- The `.md` normalization at the top of `findFirstFileByName`
(read_handler.go): append `.md` unless the name already ends in `.md`
case-insensitively. -/
def normalizeMd (filename : String) : String :=
  if goHasSuffix (goToLower filename) ".md" then filename else filename ++ ".md"

/-! `findInEntry` / `findInEntries`: the per-directory walk of
`findFirstFileByName` — depth-first in entry order, pruning ignored
directories, yielding the first file whose name case-insensitively equals
`target` (the source returns `SkipAll` there; the embedding models the
early exit by keeping the first hit in walk order). -/
mutual
def findInEntry (cfg : Config) (target parent : String) : FSEntry → Option String
  | FSEntry.file n =>
    if goEqualFold n target then some (joinPath parent n) else none
  | FSEntry.dir n cs =>
    if shouldIgnoreDir cfg n then none
    else findInEntries cfg target (joinPath parent n) cs
def findInEntries (cfg : Config) (target parent : String) : FSList → Option String
  | FSList.nil => none
  | FSList.cons e es =>
    match findInEntry cfg target parent e with
    | some p => some p
    | none => findInEntries cfg target parent es
end

/-- One configured directory's contribution to the resolver: a missing
directory yields nothing (warning logged, loop continues); the walk visits
the root directory itself first, so an ignored root is skipped whole. -/
def resolveInRoot (cfg : Config) (target : String) : Option Root → Option String
  | none => none
  | some r =>
    if shouldIgnoreDir cfg r.name then none
    else findInEntries cfg target r.absPath r.children

/-- The directory loop of `findFirstFileByName`: the first directory (in
configuration order) whose walk finds a file wins; later directories are
not consulted. -/
def searchRoots (cfg : Config) (target : String) : List (Option Root) → Option String
  | [] => none
  | r :: rs =>
    match resolveInRoot cfg target r with
    | some p => some p
    | none => searchRoots cfg target rs

/-- Model of `findFirstFileByName` (read_handler.go): normalize the name, search the
configured directories in order, and report a not-found error when no
directory yields a match. -/
def findFirstFileByName (cfg : Config) (roots : List (Option Root))
    (filename : String) : Except String String :=
  let target := normalizeMd filename
  match searchRoots cfg target roots with
  | some p => Except.ok p
  | none => Except.error ("file not found: " ++ target)

/-- The observable outcome of `handleReadMarkdownFile`, one constructor per
return site. -/
inductive ReadOutcome where
  | invalidTraversal
  | pathLike
  | searchError (msg : String)
  | notMarkdown (path : String)
  | readError (path : String)
  | success (content : String)
deriving DecidableEq, Repr

/-- Model of `handleReadMarkdownFile` (read_handler.go): reject a filename holding
`..` before anything else; reject a filename holding a path separator
(`/`, the separator on the target platform) without touching the
filesystem; otherwise resolve the name, defensively check the resolved
path ends in `.md`, and read the file.  `contents` maps a path to its
bytes (`none` models an `os.ReadFile` failure); `roots` and `contents`
together are the only filesystem access the handler performs. -/
def handleReadMarkdownFile (cfg : Config) (roots : List (Option Root))
    (contents : String → Option String) (filename : String) : ReadOutcome :=
  if goContains filename ".." then ReadOutcome.invalidTraversal
  else if !(goContains filename "/") then
    match findFirstFileByName cfg roots filename with
    | Except.error e => ReadOutcome.searchError e
    | Except.ok targetFile =>
      if !(goHasSuffix (goToLower targetFile) ".md") then ReadOutcome.notMarkdown targetFile
      else
        match contents targetFile with
        | none => ReadOutcome.readError targetFile
        | some c => ReadOutcome.success c
  else ReadOutcome.pathLike

/-! ## Sample data for concrete evaluations -/

/-- A sample root directory at `/docs` holding two markdown files (one in a
subdirectory, one with an upper-case extension), one non-markdown file, and
a markdown file hidden inside an ignored `node_modules` directory. -/
def sampleRoot : Root :=
  { absPath := "/docs", name := "docs",
    children := fsList [FSEntry.file "a.md", FSEntry.file "notes.txt",
                 FSEntry.dir "node_modules" (fsList [FSEntry.file "hidden.md"]),
                 FSEntry.dir "guides" (fsList [FSEntry.file "b.MD"])] }

/-- A second sample root at `/wiki`, holding `shared.md` and `a.md`. -/
def wikiRoot : Root :=
  { absPath := "/wiki", name := "wiki",
    children := fsList [FSEntry.file "shared.md", FSEntry.file "a.md"] }

/-- The page size `findMarkdownFiles` effectively applies: the silent
fallback to the default 50 outside `(0, maxPageSize]`. -/
def effPageSize (cfg : Config) (p : Int) : Int :=
  if p ≤ 0 ∨ p > cfg.maxPageSize then 50 else p

/-- The path of a discovered file spelled through its chain of ancestor
directory names below the root: `parent/chain₁/…/chainₖ/fname`. -/
def chainPath (parent : String) (chain : List String) (fname : String) : String :=
  joinPath (chain.foldl joinPath parent) fname

/-! ## Helper lemmas -/

theorem goHasSuffix_iff (s suf : String) :
    goHasSuffix s suf = true ↔ suf.data <:+ s.data := by
  simp [goHasSuffix]

theorem goContains_iff (s sub : String) :
    goContains s sub = true ↔ sub.data <:+: s.data := by
  simp [goContains]

theorem goToLower_data (s : String) :
    (goToLower s).data = s.data.map Char.toLower := rfl

theorem goToLower_append (a b : String) :
    (goToLower (a ++ b)).data = (goToLower a).data ++ (goToLower b).data := by
  simp [goToLower_data, String.data_append]

theorem goToLower_joinPath (parent n : String) :
    (goToLower (joinPath parent n)).data
      = (goToLower parent).data ++ '/' :: (goToLower n).data := by
  have h : Char.toLower '/' = '/' := by decide
  simp [joinPath, goToLower_data, String.data_append, h]

theorem goEqualFold_eq {a b : String} (h : goEqualFold a b = true) :
    goToLower a = goToLower b := by
  simpa [goEqualFold] using h

/-- Lower-case suffixes of the entry name survive joining it to a parent
path. -/
theorem hasSuffix_toLower_joinPath {n suf : String} (parent : String)
    (h : goHasSuffix (goToLower n) suf = true) :
    goHasSuffix (goToLower (joinPath parent n)) suf = true := by
  rw [goHasSuffix_iff] at h ⊢
  rw [goToLower_joinPath]
  refine h.trans ?_
  rw [show (goToLower parent).data ++ '/' :: (goToLower n).data
        = ((goToLower parent).data ++ ['/']) ++ (goToLower n).data by simp]
  exact List.suffix_append _ _

/-- The normalized filename of the resolver always ends in `.md`
case-insensitively. -/
theorem normalizeMd_hasSuffix (filename : String) :
    goHasSuffix (goToLower (normalizeMd filename)) ".md" = true := by
  unfold normalizeMd
  split
  · assumption
  · rw [goHasSuffix_iff, goToLower_append]
    rw [show (goToLower ".md").data = ".md".data from by decide]
    exact List.suffix_append _ _

/-! Every path the resolver walk produces is `parent/…/name` for a file
entry whose name case-insensitively equals the search target. -/
mutual
theorem findInEntry_shape (cfg : Config) (target : String) :
    ∀ parent e p, findInEntry cfg target parent e = some p →
      ∃ q n, p = joinPath q n ∧ goEqualFold n target = true := by
  intro parent e p h
  match e with
  | FSEntry.file n =>
    rw [findInEntry] at h
    split at h
    · exact ⟨parent, n, by simpa using h.symm, by assumption⟩
    · simp at h
  | FSEntry.dir n cs =>
    rw [findInEntry] at h
    split at h
    · simp at h
    · exact findInEntries_shape cfg target (joinPath parent n) cs p h
theorem findInEntries_shape (cfg : Config) (target : String) :
    ∀ parent es p, findInEntries cfg target parent es = some p →
      ∃ q n, p = joinPath q n ∧ goEqualFold n target = true := by
  intro parent es p h
  match es with
  | FSList.nil => rw [findInEntries] at h; simp at h
  | FSList.cons e es =>
    rw [findInEntries] at h
    split at h
    · cases h
      exact findInEntry_shape cfg target parent e _ (by assumption)
    · exact findInEntries_shape cfg target parent es p h
end

/-- A root's contribution to the resolver has the same shape. -/
theorem resolveInRoot_shape (cfg : Config) (target : String)
    (r : Option Root) (p : String) (h : resolveInRoot cfg target r = some p) :
    ∃ q n, p = joinPath q n ∧ goEqualFold n target = true := by
  match r with
  | none => simp [resolveInRoot] at h
  | some root =>
    rw [resolveInRoot] at h
    split at h
    · simp at h
    · exact findInEntries_shape cfg target root.absPath root.children p h

/-- Lemma: `searchRoots` returns the match of the first contributing root; the
roots after it are irrelevant. -/
theorem searchRoots_first (cfg : Config) (target : String) :
    ∀ rs1 r rs2 p, (∀ r2 ∈ rs1, resolveInRoot cfg target r2 = none) →
      resolveInRoot cfg target r = some p →
      searchRoots cfg target (rs1 ++ r :: rs2) = some p := by
  intro rs1
  induction rs1 with
  | nil =>
    intro r rs2 p _ hr
    simp [searchRoots, hr]
  | cons r1 rs ih =>
    intro r rs2 p hnone hr
    have h1 : resolveInRoot cfg target r1 = none := hnone r1 (by simp)
    simp only [List.cons_append, searchRoots, h1]
    exact ih r rs2 p (fun r2 hm => hnone r2 (by simp [hm])) hr

/-- When no root contributes, `searchRoots` yields nothing. -/
theorem searchRoots_none (cfg : Config) (target : String) :
    ∀ rs, (∀ r ∈ rs, resolveInRoot cfg target r = none) →
      searchRoots cfg target rs = none := by
  intro rs
  induction rs with
  | nil => intro; rfl
  | cons r1 rs ih =>
    intro hnone
    have h1 : resolveInRoot cfg target r1 = none := hnone r1 (by simp)
    simp only [searchRoots, h1]
    exact ih (fun r2 hm => hnone r2 (by simp [hm]))

/-- The overall search result has the resolver walk's shape. -/
theorem searchRoots_shape (cfg : Config) (t : String) :
    ∀ rs p, searchRoots cfg t rs = some p →
      ∃ q n, p = joinPath q n ∧ goEqualFold n t = true := by
  intro rs
  induction rs with
  | nil => intro p h; simp [searchRoots] at h
  | cons r rs ih =>
    intro p h
    rw [searchRoots] at h
    split at h
    · cases h
      exact resolveInRoot_shape cfg t r _ (by assumption)
    · exact ih p h

theorem effPageSize_pos (cfg : Config) (p : Int) : 0 < effPageSize cfg p := by
  unfold effPageSize
  split
  · decide
  · omega

/-- Unfolding lemma: `findMarkdownFiles` is exactly: filter the discovered files, then keep
the first `effPageSize` of them. -/
theorem findMarkdownFiles_eq (cfg : Config) (roots : List (Option Root))
    (query : String) (p : Int) :
    findMarkdownFiles cfg roots query p
      = (filterByQuery query (discoveredFiles cfg roots)).take (effPageSize cfg p).toNat := by
  unfold findMarkdownFiles effPageSize
  by_cases hc : p ≤ 0 ∨ p > cfg.maxPageSize
  · simp only [if_pos hc]
    split
    · rename_i h
      symm
      apply List.take_of_length_le
      omega
    · rfl
  · simp only [if_neg hc]
    split
    · rename_i h
      symm
      apply List.take_of_length_le
      omega
    · rfl

/-- Truncation: `Int.tdiv` of a rational's numerator by its denominator truncates the
rational toward zero. -/
theorem truncRat_eq (q : ℚ) : truncRat q = if 0 ≤ q then ⌊q⌋ else ⌈q⌉ := by
  by_cases h : 0 ≤ q
  · rw [if_pos h, Rat.floor_def, truncRat]
    exact Int.tdiv_eq_ediv (Rat.num_nonneg.mpr h) (by positivity)
  · rw [if_neg h]
    have hq : 0 ≤ -q := by linarith [not_le.mp h]
    have h2 : 0 ≤ (-q).num := Rat.num_nonneg.mpr hq
    have e1 : ⌈q⌉ = -⌊-q⌋ := by rw [Int.floor_neg]; omega
    rw [e1, Rat.floor_def, Rat.neg_num, Rat.neg_den]
    unfold truncRat
    calc q.num.tdiv q.den
        = -((-q.num).tdiv q.den) := by rw [Int.neg_tdiv]; omega
      _ = -(-q.num / q.den) := by
          rw [Int.tdiv_eq_ediv (by simpa using h2) (by positivity)]

/-! Every file the collection walk yields lies under a chain of ancestor
directories none of which is ignored. -/
mutual
theorem collectEntry_chains (cfg : Config) :
    ∀ parent e p, p ∈ collectEntry cfg parent e →
      ∃ chain fname, p = chainPath parent chain fname ∧
        (∀ d ∈ chain, shouldIgnoreDir cfg d = false) ∧ isMdName fname = true := by
  intro parent e p hp
  match e with
  | FSEntry.file n =>
    rw [collectEntry] at hp
    split at hp
    · refine ⟨[], n, ?_, by simp, by assumption⟩
      simpa [chainPath] using (List.mem_singleton.mp hp)
    · simp at hp
  | FSEntry.dir n cs =>
    rw [collectEntry] at hp
    split at hp
    · simp at hp
    · obtain ⟨chain, fname, hpath, hclean, hmd⟩ :=
        collectEntries_chains cfg (joinPath parent n) cs p hp
      refine ⟨n :: chain, fname, ?_, ?_, hmd⟩
      · simpa [chainPath] using hpath
      · intro d hd
        rcases List.mem_cons.mp hd with h1 | h1
        · subst h1
          simpa using (by assumption : ¬ shouldIgnoreDir cfg d = true)
        · exact hclean d h1
theorem collectEntries_chains (cfg : Config) :
    ∀ parent es p, p ∈ collectEntries cfg parent es →
      ∃ chain fname, p = chainPath parent chain fname ∧
        (∀ d ∈ chain, shouldIgnoreDir cfg d = false) ∧ isMdName fname = true := by
  intro parent es p hp
  match es with
  | FSList.nil => rw [collectEntries] at hp; simp at hp
  | FSList.cons e es =>
    rw [collectEntries] at hp
    rcases List.mem_append.mp hp with h1 | h1
    · exact collectEntry_chains cfg parent e p h1
    · exact collectEntries_chains cfg parent es p h1
end

/-! ## Claim theorems -/

/-- C2 (counterexample): the claim as stated is false — under the default
ignore patterns, `shouldIgnoreDir` does return `true` for
`my_node_modules`, because Go regexp search is unanchored and the pattern
`node_modules$` matches any name that ends with `node_modules`. -/
theorem shouldIgnoreDir_defaults_cex :
    ¬ (shouldIgnoreDir defaultCfg ".git" = true ∧
       shouldIgnoreDir defaultCfg ".gitignore" = false ∧
       shouldIgnoreDir defaultCfg "my_node_modules" = false) := by
  decide

/-- C2 (amended): under the default ignore patterns `shouldIgnoreDir`
returns `true` for a directory literally named `.git`, `false` for
`.gitignore`, and `true` for `my_node_modules` — a trailing-`$` pattern
matches any name ending with the literal, prefixes included. -/
theorem shouldIgnoreDir_defaults :
    shouldIgnoreDir defaultCfg ".git" = true ∧
    shouldIgnoreDir defaultCfg ".gitignore" = false ∧
    shouldIgnoreDir defaultCfg "my_node_modules" = true := by
  decide

/-- C4: a requested page size that is non-positive or exceeds
`maxPageSize` silently falls back to the default 50 (the result is
identical to requesting 50, not clamped to the maximum, and no error is
possible — the function is total); an in-range request is used as given;
and the returned count never exceeds the effective page size. -/
theorem findMarkdownFiles_pageSize (cfg : Config) (roots : List (Option Root))
    (query : String) (p : Int) :
    ((p ≤ 0 ∨ p > cfg.maxPageSize) →
        findMarkdownFiles cfg roots query p = findMarkdownFiles cfg roots query 50 ∧
        (findMarkdownFiles cfg roots query p).length ≤ 50) ∧
    (0 < p → p ≤ cfg.maxPageSize →
        ((findMarkdownFiles cfg roots query p).length : Int) ≤ p) := by
  constructor
  · intro h
    have e1 : effPageSize cfg p = 50 := by simp [effPageSize, h]
    have e2 : effPageSize cfg 50 = 50 := by
      unfold effPageSize
      split <;> rfl
    rw [findMarkdownFiles_eq, findMarkdownFiles_eq, e1, e2]
    refine ⟨rfl, ?_⟩
    rw [List.length_take]
    omega
  · intro h1 h2
    have e1 : effPageSize cfg p = p := by
      unfold effPageSize
      rw [if_neg (by omega)]
    rw [findMarkdownFiles_eq, e1, List.length_take]
    omega

/-- C9: a configured root directory that does not exist contributes no
results, other configured roots are still scanned, and the find operation
still succeeds — dropping the missing root from the configuration leaves
the discovery, find and handler outputs unchanged. -/
theorem missingRoot_skipped (cfg : Config) (rs1 rs2 : List (Option Root))
    (query : String) (p : Int) (args : JValue) :
    collectMarkdownFilesFromDir cfg none = [] ∧
    discoveredFiles cfg (rs1 ++ none :: rs2) = discoveredFiles cfg (rs1 ++ rs2) ∧
    findMarkdownFiles cfg (rs1 ++ none :: rs2) query p
      = findMarkdownFiles cfg (rs1 ++ rs2) query p ∧
    handleFindMarkdownFiles cfg (rs1 ++ none :: rs2) args
      = handleFindMarkdownFiles cfg (rs1 ++ rs2) args := by
  have hd : discoveredFiles cfg (rs1 ++ none :: rs2) = discoveredFiles cfg (rs1 ++ rs2) := by
    simp [discoveredFiles, collectMarkdownFilesFromDir]
  have hf : ∀ q2 p2, findMarkdownFiles cfg (rs1 ++ none :: rs2) q2 p2
      = findMarkdownFiles cfg (rs1 ++ rs2) q2 p2 := by
    intro q2 p2
    rw [findMarkdownFiles_eq, findMarkdownFiles_eq, hd]
  refine ⟨rfl, hd, hf query p, ?_⟩
  unfold handleFindMarkdownFiles
  simp only [hf]

/-- C4 witness: on the sample filesystem, page size 0 falls back to the
default (all files returned, same as requesting 50) and page size 1 caps
the count at 1. -/
theorem findMarkdownFiles_pageSize_witness :
    (findMarkdownFiles defaultCfg [some sampleRoot] "" 0
        = findMarkdownFiles defaultCfg [some sampleRoot] "" 50 ∧
      (findMarkdownFiles defaultCfg [some sampleRoot] "" 0).length ≤ 50) ∧
    ((findMarkdownFiles defaultCfg [some sampleRoot] "" 1).length : Int) ≤ 1 :=
  ⟨(findMarkdownFiles_pageSize defaultCfg [some sampleRoot] "" 0).1 (by decide),
   (findMarkdownFiles_pageSize defaultCfg [some sampleRoot] "" 1).2 (by decide) (by decide)⟩

/-- C3: the resolver appends `.md` to the filename unless it already ends
with `.md` case-insensitively; the configured directories are searched in
order, the result is the first match found in the first directory that
contains any match, directories after a successful match never influence
the result, and when no directory yields a match it signals not-found. -/
theorem findFirstFileByName_spec (cfg : Config) (filename : String) :
    normalizeMd filename
        = (if goHasSuffix (goToLower filename) ".md" then filename else filename ++ ".md") ∧
    (∀ rs1 r rs2 p, (∀ r2 ∈ rs1, resolveInRoot cfg (normalizeMd filename) r2 = none) →
        resolveInRoot cfg (normalizeMd filename) r = some p →
        findFirstFileByName cfg (rs1 ++ r :: rs2) filename = Except.ok p) ∧
    (∀ rs, (∀ r ∈ rs, resolveInRoot cfg (normalizeMd filename) r = none) →
        findFirstFileByName cfg rs filename
          = Except.error ("file not found: " ++ normalizeMd filename)) := by
  refine ⟨rfl, ?_, ?_⟩
  · intro rs1 r rs2 p hnone hr
    unfold findFirstFileByName
    simp only [searchRoots_first cfg (normalizeMd filename) rs1 r rs2 p hnone hr]
  · intro rs hnone
    unfold findFirstFileByName
    simp only [searchRoots_none cfg (normalizeMd filename) rs hnone]

/-- C3 witness: with a missing directory first, `a` resolves to
`/docs/a.md` from the first existing directory regardless of the trailing
`/wiki` root (which also holds an `a.md`), and an unknown name yields the
not-found error with `.md` appended. -/
theorem findFirstFileByName_spec_witness :
    findFirstFileByName defaultCfg [none, some sampleRoot, some wikiRoot] "a"
      = Except.ok "/docs/a.md" ∧
    findFirstFileByName defaultCfg [some sampleRoot] "zzz"
      = Except.error "file not found: zzz.md" := by
  constructor
  · have h := (findFirstFileByName_spec defaultCfg "a").2.1
      [none] (some sampleRoot) [some wikiRoot] "/docs/a.md" (by decide) (by decide)
    simpa using h
  · have h := (findFirstFileByName_spec defaultCfg "zzz").2.2 [some sampleRoot] (by decide)
    rw [h]
    rfl

/-- C5: every file returned for a non-empty query has a base filename
containing the query case-insensitively; the empty query returns the
unfiltered discovered files subject only to pagination; and the result is
always the first effective-page-size entries of the filtered sequence. -/
theorem findMarkdownFiles_query (cfg : Config) (roots : List (Option Root))
    (q : String) (p : Int) (f : String)
    (hf : f ∈ findMarkdownFiles cfg roots q p) :
    (q ≠ "" → goContains (goToLower (goBase f)) (goToLower q) = true) ∧
    (q = "" → findMarkdownFiles cfg roots q p
        = (discoveredFiles cfg roots).take (effPageSize cfg p).toNat) ∧
    findMarkdownFiles cfg roots q p
      = (filterByQuery q (discoveredFiles cfg roots)).take (effPageSize cfg p).toNat := by
  refine ⟨?_, ?_, findMarkdownFiles_eq cfg roots q p⟩
  · intro hq
    rw [findMarkdownFiles_eq] at hf
    have hmem : f ∈ filterByQuery q (discoveredFiles cfg roots) :=
      List.take_subset _ _ hf
    rw [filterByQuery, if_pos hq] at hmem
    exact (List.mem_filter.mp hmem).2
  · intro hq
    rw [findMarkdownFiles_eq]
    subst hq
    rw [filterByQuery]
    simp

/-- C5 witness: querying `b` on the sample filesystem returns only
`/docs/guides/b.MD`, whose base name contains the query
case-insensitively; the empty query returns everything paginated. -/
theorem findMarkdownFiles_query_witness :
    goContains (goToLower (goBase "/docs/guides/b.MD")) (goToLower "b") = true ∧
    findMarkdownFiles defaultCfg [some sampleRoot] "" 50
      = (discoveredFiles defaultCfg [some sampleRoot]).take
          (effPageSize defaultCfg 50).toNat :=
  ⟨(findMarkdownFiles_query defaultCfg [some sampleRoot] "b" 50 "/docs/guides/b.MD"
      (by decide)).1 (by decide),
   (findMarkdownFiles_query defaultCfg [some sampleRoot] "" 50 "/docs/a.md"
      (by decide)).2.1 rfl⟩

/-- C6: a filename containing `..` or a path separator is rejected by the
read operation with an invalid-input error (traversal rejection, or the
path-shaped-filename rejection) and the outcome is independent of the
entire filesystem — no filesystem access happens before rejection, and the
resolver is never entered. -/
theorem handleRead_rejects_paths (cfg cfg2 : Config)
    (roots roots2 : List (Option Root))
    (contents contents2 : String → Option String) (filename : String)
    (h : goContains filename ".." = true ∨ goContains filename "/" = true) :
    (handleReadMarkdownFile cfg roots contents filename = ReadOutcome.invalidTraversal ∨
      handleReadMarkdownFile cfg roots contents filename = ReadOutcome.pathLike) ∧
    handleReadMarkdownFile cfg roots contents filename
      = handleReadMarkdownFile cfg2 roots2 contents2 filename := by
  cases h1 : goContains filename ".."
  · have h2 : goContains filename "/" = true := by
      rcases h with h | h
      · rw [h1] at h
        cases h
      · exact h
    constructor
    · right
      simp [handleReadMarkdownFile, h1, h2]
    · simp [handleReadMarkdownFile, h1, h2]
  · constructor
    · left
      simp [handleReadMarkdownFile, h1]
    · simp [handleReadMarkdownFile, h1]

/-- C6 witness: the traversal attempt `../../etc/passwd` and the
path-shaped `a/b.md` are both rejected, with the outcome identical across
two entirely different filesystems. -/
theorem handleRead_rejects_paths_witness :
    (handleReadMarkdownFile defaultCfg [some sampleRoot] (fun _ => some "body")
        "../../etc/passwd" = ReadOutcome.invalidTraversal ∨
      handleReadMarkdownFile defaultCfg [some sampleRoot] (fun _ => some "body")
        "../../etc/passwd" = ReadOutcome.pathLike) ∧
    handleReadMarkdownFile defaultCfg [some sampleRoot] (fun _ => some "body")
        "../../etc/passwd"
      = handleReadMarkdownFile { directories := [], maxPageSize := 1, ignoreDirs := [] }
          [] (fun _ => none) "../../etc/passwd" :=
  handleRead_rejects_paths defaultCfg { directories := [], maxPageSize := 1, ignoreDirs := [] }
    [some sampleRoot] [] (fun _ => some "body") (fun _ => none) "../../etc/passwd"
    (Or.inl (by decide))

/-- C7: whenever the name resolver succeeds, the path it returns ends with
`.md` case-insensitively (the found file's name case-insensitively equals
the normalized target, which always ends in `.md`), so the read
operation's defensive wrong-extension branch can never fire. -/
theorem resolver_result_is_md (cfg : Config) (roots : List (Option Root))
    (filename target : String)
    (h : findFirstFileByName cfg roots filename = Except.ok target) :
    goHasSuffix (goToLower target) ".md" = true ∧
    (∀ contents p, handleReadMarkdownFile cfg roots contents filename
        ≠ ReadOutcome.notMarkdown p) := by
  have hsr : searchRoots cfg (normalizeMd filename) roots = some target := by
    cases hsr0 : searchRoots cfg (normalizeMd filename) roots with
    | none => simp [findFirstFileByName, hsr0] at h
    | some p0 =>
      have : p0 = target := by simpa [findFirstFileByName, hsr0] using h
      rw [← this]
  obtain ⟨q, n, hpt, hfold⟩ := searchRoots_shape cfg (normalizeMd filename) roots target hsr
  have hsuf : goHasSuffix (goToLower target) ".md" = true := by
    rw [hpt]
    apply hasSuffix_toLower_joinPath
    rw [goEqualFold_eq hfold]
    exact normalizeMd_hasSuffix filename
  refine ⟨hsuf, ?_⟩
  intro contents p hcon
  unfold handleReadMarkdownFile at hcon
  by_cases h1 : goContains filename ".." = true
  · simp [h1] at hcon
  · by_cases h2 : goContains filename "/" = true
    · simp [h1, h2] at hcon
    · cases hc : contents target with
      | none => simp [h1, h2, h, hsuf, hc] at hcon
      | some body => simp [h1, h2, h, hsuf, hc] at hcon

/-- C7 witness: `B` resolves to `/docs/guides/b.MD`, whose lower-cased
path ends in `.md`, and reading `B` can never hit the wrong-extension
branch. -/
theorem resolver_result_is_md_witness :
    goHasSuffix (goToLower "/docs/guides/b.MD") ".md" = true ∧
    handleReadMarkdownFile defaultCfg [some sampleRoot] (fun _ => some "body") "B"
      ≠ ReadOutcome.notMarkdown "/docs/guides/b.MD" :=
  ⟨(resolver_result_is_md defaultCfg [some sampleRoot] "B" "/docs/guides/b.MD" (by rfl)).1,
   (resolver_result_is_md defaultCfg [some sampleRoot] "B" "/docs/guides/b.MD" (by rfl)).2
      (fun _ => some "body") "/docs/guides/b.MD"⟩

/-- C8: a directory whose name matches an ignore pattern is never
descended into — as a child its subtree contributes nothing, and as a
configured root its whole walk is skipped — and every path discovery does
return lies under a chain of ancestor directories none of which matches
any ignore pattern (so no file under an ignored directory, at any depth,
ever appears in results). -/
theorem ignoredDir_never_descended (cfg : Config) (parent n : String)
    (cs : FSList) (r : Root) (p : String)
    (hn : shouldIgnoreDir cfg n = true)
    (hp : p ∈ collectMarkdownFilesFromDir cfg (some r)) :
    collectEntry cfg parent (FSEntry.dir n cs) = [] ∧
    collectMarkdownFilesFromDir cfg (some { absPath := parent, name := n, children := cs }) = [] ∧
    shouldIgnoreDir cfg r.name = false ∧
    (∃ chain fname, p = chainPath r.absPath chain fname ∧
        (∀ d ∈ chain, shouldIgnoreDir cfg d = false) ∧ isMdName fname = true) := by
  refine ⟨by simp [collectEntry, hn], by simp [collectMarkdownFilesFromDir, hn], ?_, ?_⟩
  · rw [collectMarkdownFilesFromDir] at hp
    by_contra hroot
    rw [if_pos (by simpa using hroot)] at hp
    cases hp
  · rw [collectMarkdownFilesFromDir] at hp
    split at hp
    · cases hp
    · exact collectEntries_chains cfg r.absPath r.children p hp

/-- C8 witness: on the sample filesystem `/docs/a.md` is discovered, the
root is not ignored, and the ignored `node_modules` child (whose
`hidden.md` never appears) contributes nothing. -/
theorem ignoredDir_never_descended_witness :
    collectEntry defaultCfg "/docs"
        (FSEntry.dir "node_modules" (fsList [FSEntry.file "hidden.md"])) = [] ∧
    shouldIgnoreDir defaultCfg (Root.name sampleRoot) = false ∧
    collectMarkdownFilesFromDir defaultCfg (some sampleRoot)
      = ["/docs/a.md", "/docs/guides/b.MD"] :=
  ⟨(ignoredDir_never_descended defaultCfg "/docs" "node_modules"
      (fsList [FSEntry.file "hidden.md"]) sampleRoot "/docs/a.md"
      (by decide) (by decide)).1,
   (ignoredDir_never_descended defaultCfg "/docs" "node_modules"
      (fsList [FSEntry.file "hidden.md"]) sampleRoot "/docs/a.md"
      (by decide) (by decide)).2.2.1,
   by decide⟩

/-- C10: a missing `page_size` argument, a non-object argument set, a
value that is neither a string nor a number, or a string that does not
parse as an integer all leave the request with the default page size 50
(no error); a string that parses is used as parsed; and a JSON number is
truncated toward zero (floor for non-negative values, ceiling for
negative ones) before the page-size fallback rule is applied. -/
theorem extractPageSizeParam_spec (fields : List (String × JValue)) (s : String) (q : ℚ) :
    extractPageSizeParam JValue.null = 50 ∧
    (jLookup fields "page_size" = none → extractPageSizeParam (JValue.obj fields) = 50) ∧
    (∀ v, jLookup fields "page_size" = some v →
        (∀ s2, v ≠ JValue.str s2) → (∀ q2, v ≠ JValue.num q2) →
        extractPageSizeParam (JValue.obj fields) = 50) ∧
    (jLookup fields "page_size" = some (JValue.str s) → parseAtoi s = none →
        extractPageSizeParam (JValue.obj fields) = 50) ∧
    (∀ n, jLookup fields "page_size" = some (JValue.str s) → parseAtoi s = some n →
        extractPageSizeParam (JValue.obj fields) = n) ∧
    (jLookup fields "page_size" = some (JValue.num q) →
        extractPageSizeParam (JValue.obj fields) = truncRat q) ∧
    truncRat q = (if 0 ≤ q then ⌊q⌋ else ⌈q⌉) := by
  refine ⟨rfl, ?_, ?_, ?_, ?_, ?_, truncRat_eq q⟩
  · intro hl
    simp [extractPageSizeParam, hl]
  · intro v hl hs hq
    cases v <;> simp [extractPageSizeParam, hl]
    · exact absurd rfl (hq _)
    · exact absurd rfl (hs _)
  · intro hl hp
    simp [extractPageSizeParam, hl, hp]
  · intro n hl hp
    simp [extractPageSizeParam, hl, hp]
  · intro hl
    simp [extractPageSizeParam, hl]

/-- C10 witness: an unparseable string and a missing key both fall back to
50, a parseable string is used, and a number argument goes through the
truncation. -/
theorem extractPageSizeParam_spec_witness :
    extractPageSizeParam (JValue.obj [("page_size", JValue.str "abc")]) = 50 ∧
    extractPageSizeParam (JValue.obj [("query", JValue.str "x")]) = 50 ∧
    extractPageSizeParam (JValue.obj [("page_size", JValue.str "25")]) = 25 ∧
    extractPageSizeParam (JValue.obj [("page_size", JValue.bool true)]) = 50 ∧
    extractPageSizeParam (JValue.obj [("page_size", JValue.num 3)]) = truncRat 3 :=
  ⟨(extractPageSizeParam_spec [("page_size", JValue.str "abc")] "abc" 0).2.2.2.1
      rfl (by decide),
   (extractPageSizeParam_spec [("query", JValue.str "x")] "" 0).2.1 rfl,
   (extractPageSizeParam_spec [("page_size", JValue.str "25")] "25" 0).2.2.2.2.1
      25 rfl (by decide),
   (extractPageSizeParam_spec [("page_size", JValue.bool true)] "" 0).2.2.1
      (JValue.bool true) rfl (fun _ h => JValue.noConfusion h) (fun _ h => JValue.noConfusion h),
   (extractPageSizeParam_spec [("page_size", JValue.num 3)] "" 3).2.2.2.2.2.1 rfl⟩

/-- C1 (counterexample): the claim as stated is false — the find handler's
file objects do not bear only a `name` field; each carries a `path` field
holding the absolute path (and a `relativePath` field), so absolute paths
are surfaced to the protocol layer. -/
theorem find_output_exposes_path_cex :
    (handleFindMarkdownFiles defaultCfg [some sampleRoot] (JValue.obj [])).files
      = [{ path := "/docs/a.md", name := "a.md", relativePath := "a.md" },
         { path := "/docs/guides/b.MD", name := "b.MD", relativePath := "b.MD" }] ∧
    ("/docs/a.md" : String) ≠ "a.md" := by
  decide

/-- C1 (amended): every file object in the find output bears three fields
— `path` (the absolute path, which is exposed), `name` (the base
filename), and `relativePath` (the path relative to its parent directory)
— together with the returned count and the configured directories; the
`path` fields are exactly the pagination result. -/
theorem find_output_shape (cfg : Config) (roots : List (Option Root))
    (args : JValue) (fi : FileInfo)
    (hfi : fi ∈ (handleFindMarkdownFiles cfg roots args).files) :
    (handleFindMarkdownFiles cfg roots args).count
        = (handleFindMarkdownFiles cfg roots args).files.length ∧
    (handleFindMarkdownFiles cfg roots args).directories = cfg.directories ∧
    (handleFindMarkdownFiles cfg roots args).files.map FileInfo.path
        = findMarkdownFiles cfg roots (extractQueryParam args) (extractPageSizeParam args) ∧
    fi.name = goBase fi.path ∧
    fi.relativePath = goTrimHead fi.path (goDir fi.path ++ "/") := by
  refine ⟨rfl, rfl, ?_, ?_, ?_⟩
  · simp only [handleFindMarkdownFiles, List.map_map]
    have : (FileInfo.path ∘ fun file =>
        ({ path := file, name := goBase file,
           relativePath := goTrimHead file (goDir file ++ "/") } : FileInfo))
        = fun file => file := rfl
    rw [this, List.map_id']
  · simp only [handleFindMarkdownFiles, List.mem_map] at hfi
    obtain ⟨file, _, hfile⟩ := hfi
    rw [← hfile]
  · simp only [handleFindMarkdownFiles, List.mem_map] at hfi
    obtain ⟨file, _, hfile⟩ := hfi
    rw [← hfile]

/-- C1 (amended) witness: the first file object of the sample run carries
its own base name and parent-relative path. -/
theorem find_output_shape_witness :
    (handleFindMarkdownFiles defaultCfg [some sampleRoot] (JValue.obj [])).count
        = (handleFindMarkdownFiles defaultCfg [some sampleRoot] (JValue.obj [])).files.length ∧
    ({ path := "/docs/a.md", name := "a.md", relativePath := "a.md" } : FileInfo).name
        = goBase "/docs/a.md" :=
  ⟨(find_output_shape defaultCfg [some sampleRoot] (JValue.obj [])
      { path := "/docs/a.md", name := "a.md", relativePath := "a.md" } (by decide)).1,
   (find_output_shape defaultCfg [some sampleRoot] (JValue.obj [])
      { path := "/docs/a.md", name := "a.md", relativePath := "a.md" } (by decide)).2.2.2.1⟩
